import Mathlib

/-!
Shallow embedding of `src/src/id.rs` (MaidSafe routing identity module).

The module defines `PublicId` (name + public keys) and `FullId` (a `PublicId`
plus the private halves).  A name is the sha3-256 digest of the public signing
key's bytes.  `FullId::within_range` rejection-samples signing key pairs until
the derived name lands in a closed interval `[start, end]` of the name order.

Modelling choices:
* Bytes are `Fin 256`; key material and names are byte lists (`u8` arrays in
  the source).  The Rust `Ord` derived on fixed arrays and on `XorName` is the
  lexicographic order on the byte sequence, embedded here as `bytesCompare`.
* `sha3_256` is an external primitive (the spec treats the hash as an opaque
  bytes → digest function), so every definition that derives a name takes the
  hash as an explicit function argument.
* Key generation draws from the process RNG.  We model the RNG as two streams
  of key pairs plus a draw counter `c : Nat`; each call to `gen_keypair`
  consumes the stream value at the current counter and advances the counter by
  one.  The order of counter consumption therefore records the exact sequence
  of draws the code performs.
* The unbounded `loop` in `within_range` is embedded with explicit fuel,
  returning `none` when the fuel runs out before a draw is accepted.
-/

namespace Routing

/-- A byte, `u8` in the source. -/
abbrev Byte := Fin 256

/-- Lexicographic comparison of byte sequences: the Rust derived `Ord` on
`[u8; 32]` (and on `XorName`, `sign::PublicKey`, `box_::PublicKey`), extended
to lists of arbitrary length (shorter prefixes compare as less). -/
def bytesCompare : List Byte → List Byte → Ordering
  | [], [] => Ordering.eq
  | [], _ :: _ => Ordering.lt
  | _ :: _, [] => Ordering.gt
  | a :: as, b :: bs =>
    if a.val < b.val then Ordering.lt
    else if b.val < a.val then Ordering.gt
    else bytesCompare as bs

/-- `XorName` from the `xor_name` crate: a 256-bit address, `[u8; 32]`. -/
structure XorName where
  bytes : List Byte
deriving DecidableEq

/-- The total order on names (Rust `Ord` on `XorName`). -/
def XorName.cmp (a b : XorName) : Ordering :=
  bytesCompare a.bytes b.bytes

/-- `a <= b` on names, as the source's boolean comparison. -/
def XorName.le (a b : XorName) : Bool :=
  match XorName.cmp a b with
  | Ordering.gt => false
  | _ => true

/-- `a < b` on names. -/
def XorName.lt (a b : XorName) : Bool :=
  match XorName.cmp a b with
  | Ordering.lt => true
  | _ => false

/-- `sign::PublicKey` (ed25519 public key bytes). -/
structure SignPublicKey where
  bytes : List Byte
deriving DecidableEq

/-- `sign::SecretKey`. -/
structure SignSecretKey where
  bytes : List Byte
deriving DecidableEq

/-- `box_::PublicKey` (curve25519 public key bytes). -/
structure BoxPublicKey where
  bytes : List Byte
deriving DecidableEq

/-- `box_::SecretKey`. -/
structure BoxSecretKey where
  bytes : List Byte
deriving DecidableEq

/-- `PublicId`: name plus the two public keys, fields in the source's
declaration order (`name`, `public_sign_key`, `public_encrypt_key`). -/
structure PublicId where
  name : XorName
  public_sign_key : SignPublicKey
  public_encrypt_key : BoxPublicKey
deriving DecidableEq

/-- `PublicId::name_from_key`: the name is the sha3-256 digest of the public
signing key's bytes.  The hash itself is an external primitive, passed in. -/
def PublicId.name_from_key (sha3_256 : List Byte → List Byte)
    (public_sign_key : SignPublicKey) : XorName :=
  XorName.mk (sha3_256 public_sign_key.bytes)

/-- `PublicId::new`: build from the two public keys, deriving the name. -/
def PublicId.new (sha3_256 : List Byte → List Byte)
    (public_encrypt_key : BoxPublicKey) (public_sign_key : SignPublicKey) :
    PublicId :=
  { name := PublicId.name_from_key sha3_256 public_sign_key
    public_sign_key := public_sign_key
    public_encrypt_key := public_encrypt_key }

/-- Accessor `PublicId::signing_public_key`. -/
def PublicId.signing_public_key (p : PublicId) : SignPublicKey :=
  p.public_sign_key

/-- Accessor `PublicId::encrypting_public_key`. -/
def PublicId.encrypting_public_key (p : PublicId) : BoxPublicKey :=
  p.public_encrypt_key

/-- The derived `Ord` on `PublicId`: fields compared in declaration order —
`name` first, then `public_sign_key`, then `public_encrypt_key`. -/
def PublicId.cmp (a b : PublicId) : Ordering :=
  (bytesCompare a.name.bytes b.name.bytes).then
    ((bytesCompare a.public_sign_key.bytes b.public_sign_key.bytes).then
      (bytesCompare a.public_encrypt_key.bytes b.public_encrypt_key.bytes))

/-- `a < b` on `PublicId` (Rust `PartialOrd` from the derived `Ord`). -/
def PublicId.lt (a b : PublicId) : Prop :=
  PublicId.cmp a b = Ordering.lt

instance (a b : PublicId) : Decidable (PublicId.lt a b) :=
  inferInstanceAs (Decidable (_ = _))

/-- `FullId`: the public identity plus the private key halves. -/
structure FullId where
  public_id : PublicId
  private_encrypt_key : BoxSecretKey
  private_sign_key : SignSecretKey
deriving DecidableEq

/-- The process RNG, modelled as two streams of key pairs indexed by a draw
counter; `gen_keypair` reads the stream at the counter and advances it. -/
structure Rng where
  signStream : Nat → SignPublicKey × SignSecretKey
  boxStream : Nat → BoxPublicKey × BoxSecretKey

/-- `sign::gen_keypair`: one draw from the RNG. -/
def genSignKeypair (rng : Rng) (c : Nat) :
    (SignPublicKey × SignSecretKey) × Nat :=
  (rng.signStream c, c + 1)

/-- `box_::gen_keypair`: one draw from the RNG. -/
def genBoxKeypair (rng : Rng) (c : Nat) :
    (BoxPublicKey × BoxSecretKey) × Nat :=
  (rng.boxStream c, c + 1)

/-- `FullId::with_keys`: build from supplied key pairs.  The source performs
no consistency check between the halves (the TODO at src/src/id.rs:42). -/
def FullId.with_keys (sha3_256 : List Byte → List Byte)
    (encrypt_keys : BoxPublicKey × BoxSecretKey)
    (sign_keys : SignPublicKey × SignSecretKey) : FullId :=
  { public_id := PublicId.new sha3_256 encrypt_keys.1 sign_keys.1
    private_encrypt_key := encrypt_keys.2
    private_sign_key := sign_keys.2 }

/-- `FullId::new`: draw an encryption key pair, then a signing key pair, and
assemble the identity (src/src/id.rs:27-35). -/
def FullId.new (sha3_256 : List Byte → List Byte) (rng : Rng) (c : Nat) :
    FullId × Nat :=
  let ek := genBoxKeypair rng c
  let sk := genSignKeypair rng ek.2
  ({ public_id := PublicId.new sha3_256 ek.1.1 sk.1.1
     private_encrypt_key := ek.1.2
     private_sign_key := sk.1.2 }, sk.2)

/-- `FullId::within_range` (src/src/id.rs:52-63) with explicit fuel.  Each
iteration draws the signing key pair at the current counter; on acceptance it
draws one encryption key pair and returns, otherwise it recurses with the
advanced counter (the source's `sign_keys = sign::gen_keypair()` at the end of
the rejected loop body).  Returns the identity and the final draw counter, or
`none` if the fuel is exhausted before any draw is accepted. -/
def FullId.within_range (sha3_256 : List Byte → List Byte) (rng : Rng)
    (start e : XorName) : Nat → Nat → Option (FullId × Nat)
  | 0, _ => none
  | fuel + 1, c =>
    let sign_keys := rng.signStream c
    let name := PublicId.name_from_key sha3_256 sign_keys.1
    if XorName.le start name && XorName.le name e then
      let encrypt_keys := rng.boxStream (c + 1)
      some (FullId.with_keys sha3_256 encrypt_keys sign_keys, c + 2)
    else
      FullId.within_range sha3_256 rng start e fuel (c + 1)

/-- Accessor `FullId::public_id`. -/
def FullId.publicId (f : FullId) : PublicId :=
  f.public_id

/-- Accessor `FullId::signing_private_key`. -/
def FullId.signing_private_key (f : FullId) : SignSecretKey :=
  f.private_sign_key

/-- Accessor `FullId::encrypting_private_key`. -/
def FullId.encrypting_private_key (f : FullId) : BoxSecretKey :=
  f.private_encrypt_key

/-- Decode-time failure kind (spec §7). -/
inductive SerialisationError where
  | MalformedKeyData
deriving DecidableEq

/-- Modelled from the spec: the byte-level wire encoding produced by the serde
framework (external to src/) for `impl Serialize for PublicId`
(src/src/id.rs:117-121), which serialises the tuple
`(public_encrypt_key, public_sign_key)` — each key as its fixed-length byte
sequence, encryption key first, name omitted. -/
def PublicId.serialise (p : PublicId) : List Byte :=
  p.public_encrypt_key.bytes ++ p.public_sign_key.bytes

/-- Modelled from the spec: the byte-level wire decode (the serde framework is
external to src/).  Per spec §6 a well-formed input is exactly two 32-byte
keys; any other total length fails with `MalformedKeyData`.  On success the
value is rebuilt through `PublicId::new` (src/src/id.rs:123-129), recomputing
the name from the decoded signing key — no name field is read. -/
def PublicId.deserialise (sha3_256 : List Byte → List Byte)
    (bytes : List Byte) : Except SerialisationError PublicId :=
  if bytes.length = 64 then
    Except.ok (PublicId.new sha3_256 (BoxPublicKey.mk (bytes.take 32))
      (SignPublicKey.mk (bytes.drop 32)))
  else
    Except.error SerialisationError.MalformedKeyData

/-- `impl Debug for PublicId` (src/src/id.rs:105-109): writes
`PublicId(name: <name>)`.  The rendering of the name itself comes from the
external `xor_name` crate, abstracted as `nameFmt`. -/
def PublicId.debugFmt (nameFmt : XorName → String) (p : PublicId) : String :=
  "PublicId(name: " ++ nameFmt p.name ++ ")"

/-- `impl Display for PublicId` (src/src/id.rs:111-115): writes the name. -/
def PublicId.displayFmt (nameFmt : XorName → String) (p : PublicId) : String :=
  nameFmt p.name

/-- The acceptance test of the `within_range` loop (src/src/id.rs:56):
`name >= *start && name <= *end` for the name derived from the candidate
signing public key. -/
def inRange (sha3_256 : List Byte → List Byte) (start e : XorName)
    (k : SignPublicKey) : Bool :=
  XorName.le start (PublicId.name_from_key sha3_256 k) &&
    XorName.le (PublicId.name_from_key sha3_256 k) e

/-! ### Order lemmas for the lexicographic byte comparison -/

theorem bytesCompare_eq_iff :
    ∀ xs ys : List Byte, bytesCompare xs ys = Ordering.eq ↔ xs = ys
  | [], [] => by simp [bytesCompare]
  | [], _ :: _ => by simp [bytesCompare]
  | _ :: _, [] => by simp [bytesCompare]
  | a :: as, b :: bs => by
    by_cases h1 : a.val < b.val
    · simp only [bytesCompare, if_pos h1]
      constructor
      · intro h
        exact absurd h (by decide)
      · intro h
        injection h with h2 h3
        subst h2
        exact absurd h1 (lt_irrefl _)
    · by_cases h2 : b.val < a.val
      · simp only [bytesCompare, if_neg h1, if_pos h2]
        constructor
        · intro h
          exact absurd h (by decide)
        · intro h
          injection h with h3 h4
          subst h3
          exact absurd h2 (lt_irrefl _)
      · have hab : a = b :=
          Fin.ext (Nat.le_antisymm (Nat.le_of_not_lt h2) (Nat.le_of_not_lt h1))
        simp only [bytesCompare, if_neg h1, if_neg h2]
        rw [bytesCompare_eq_iff as bs]
        subst hab
        simp

theorem bytesCompare_swap :
    ∀ xs ys : List Byte, bytesCompare ys xs = (bytesCompare xs ys).swap
  | [], [] => by simp [bytesCompare, Ordering.swap]
  | [], _ :: _ => by simp [bytesCompare, Ordering.swap]
  | _ :: _, [] => by simp [bytesCompare, Ordering.swap]
  | a :: as, b :: bs => by
    by_cases h1 : a.val < b.val
    · have h2 : ¬ b.val < a.val := Nat.lt_asymm h1
      simp [bytesCompare, h1, h2, Ordering.swap]
    · by_cases h2 : b.val < a.val
      · simp [bytesCompare, h1, h2, Ordering.swap]
      · simp [bytesCompare, h1, h2, bytesCompare_swap as bs]

theorem bytesCompare_lt_trans :
    ∀ xs ys zs : List Byte, bytesCompare xs ys = Ordering.lt →
      bytesCompare ys zs = Ordering.lt → bytesCompare xs zs = Ordering.lt
  | [], [], _ => by
    intro h1 _
    exact absurd h1 (by simp [bytesCompare])
  | [], _ :: _, [] => by
    intro _ h2
    exact absurd h2 (by simp [bytesCompare])
  | [], _ :: _, _ :: _ => by
    intro _ _
    simp [bytesCompare]
  | _ :: _, [], _ => by
    intro h1 _
    exact absurd h1 (by simp [bytesCompare])
  | _ :: _, _ :: _, [] => by
    intro _ h2
    exact absurd h2 (by simp [bytesCompare])
  | a :: as, b :: bs, c :: cs => by
    intro h1 h2
    by_cases hab : a.val < b.val
    · by_cases hbc : b.val < c.val
      · have hac : a.val < c.val := Nat.lt_trans hab hbc
        simp [bytesCompare, hac]
      · by_cases hcb : c.val < b.val
        · simp [bytesCompare, hbc, hcb] at h2
        · have hbc2 : b.val = c.val :=
            Nat.le_antisymm (Nat.le_of_not_lt hcb) (Nat.le_of_not_lt hbc)
          have hac : a.val < c.val := hbc2 ▸ hab
          simp [bytesCompare, hac]
    · by_cases hba : b.val < a.val
      · simp [bytesCompare, hab, hba] at h1
      · have hab2 : a.val = b.val :=
          Nat.le_antisymm (Nat.le_of_not_lt hba) (Nat.le_of_not_lt hab)
        have h1r : bytesCompare as bs = Ordering.lt := by
          simpa [bytesCompare, hab, hba] using h1
        by_cases hbc : b.val < c.val
        · have hac : a.val < c.val := hab2 ▸ hbc
          simp [bytesCompare, hac]
        · by_cases hcb : c.val < b.val
          · simp [bytesCompare, hbc, hcb] at h2
          · have hbc2 : b.val = c.val :=
              Nat.le_antisymm (Nat.le_of_not_lt hcb) (Nat.le_of_not_lt hbc)
            have h2r : bytesCompare bs cs = Ordering.lt := by
              simpa [bytesCompare, hbc, hcb] using h2
            have hac2 : a.val = c.val := hab2.trans hbc2
            have hrec := bytesCompare_lt_trans as bs cs h1r h2r
            have hna : ¬ a.val < c.val := by
              rw [hac2]
              exact lt_irrefl _
            have hnc : ¬ c.val < a.val := by
              rw [hac2]
              exact lt_irrefl _
            simp [bytesCompare, hna, hnc, hrec]

theorem xorNameCmp_eq_iff (a b : XorName) :
    XorName.cmp a b = Ordering.eq ↔ a = b := by
  cases a with
  | mk as =>
    cases b with
    | mk bs => simp [XorName.cmp, bytesCompare_eq_iff]

theorem XorName.le_trans {a b c : XorName} (h1 : XorName.le a b = true)
    (h2 : XorName.le b c = true) : XorName.le a c = true := by
  cases hab : XorName.cmp a b with
  | eq =>
    have hab2 : a = b := (xorNameCmp_eq_iff a b).mp hab
    rw [hab2]
    exact h2
  | gt => simp [XorName.le, hab] at h1
  | lt =>
    cases hbc : XorName.cmp b c with
    | eq =>
      have hbc2 : b = c := (xorNameCmp_eq_iff b c).mp hbc
      rw [← hbc2]
      exact h1
    | gt => simp [XorName.le, hbc] at h2
    | lt =>
      have hac : XorName.cmp a c = Ordering.lt :=
        bytesCompare_lt_trans a.bytes b.bytes c.bytes hab hbc
      simp [XorName.le, hac]

/-- When `start > end` in the name order, the acceptance test of the
`within_range` loop is unsatisfiable: no name is both above `start` and below
`end`. -/
theorem inRange_unsat {start e : XorName} (h : XorName.le start e = false)
    (sha3_256 : List Byte → List Byte) (k : SignPublicKey) :
    inRange sha3_256 start e k = false := by
  unfold inRange
  cases h1 : XorName.le start (PublicId.name_from_key sha3_256 k) with
  | false => simp [h1]
  | true =>
    cases h2 : XorName.le (PublicId.name_from_key sha3_256 k) e with
    | false => simp [h1, h2]
    | true => rw [XorName.le_trans h1 h2] at h; cases h

/-- Full characterization of a successful `within_range` run.  Starting at
draw counter `c`, there is a rejection count `k` such that: the signing draws
at counters `c`, `c + 1`, …, `c + k - 1` were all rejected, the draw at
`c + k` was accepted, the single encryption draw happened at `c + k + 1`
(after the acceptance), and the final counter is `c + k + 2`. -/
theorem within_range_spec (sha3_256 : List Byte → List Byte) (rng : Rng)
    (start e : XorName) :
    ∀ (fuel c : Nat) (fid : FullId) (c' : Nat),
      FullId.within_range sha3_256 rng start e fuel c = some (fid, c') →
      ∃ k, k + 1 ≤ fuel ∧
        (∀ j, j < k → inRange sha3_256 start e (rng.signStream (c + j)).1 = false) ∧
        inRange sha3_256 start e (rng.signStream (c + k)).1 = true ∧
        fid = FullId.with_keys sha3_256 (rng.boxStream (c + k + 1))
          (rng.signStream (c + k)) ∧
        c' = c + k + 2 := by
  intro fuel
  induction fuel with
  | zero =>
    intro c fid c' h
    simp [FullId.within_range] at h
  | succ fuel ih =>
    intro c fid c' h
    simp only [FullId.within_range] at h
    by_cases hcond : inRange sha3_256 start e (rng.signStream c).1 = true
    · rw [if_pos (by simpa [inRange] using hcond)] at h
      injection h with h1
      injection h1 with hfid hc
      refine ⟨0, Nat.succ_le_succ (Nat.zero_le _), ?_, ?_, ?_, ?_⟩
      · intro j hj
        cases hj
      · simpa using hcond
      · simpa using hfid.symm
      · omega
    · rw [if_neg (by simpa [inRange] using hcond)] at h
      obtain ⟨k, hk, hrej, hacc, hfid, hc⟩ := ih (c + 1) fid c' h
      refine ⟨k + 1, Nat.succ_le_succ hk, ?_, ?_, ?_, ?_⟩
      · intro j hj
        cases j with
        | zero =>
          simpa using Bool.eq_false_iff.mpr hcond
        | succ j =>
          have he : c + (j + 1) = c + 1 + j := by omega
          rw [he]
          exact hrej j (by omega)
      · have he : c + (k + 1) = c + 1 + k := by omega
        rw [he]
        exact hacc
      · have he1 : c + (k + 1) = c + 1 + k := by omega
        rw [he1]
        exact hfid
      · omega

/-- If the first accepted signing draw is the one at offset `k`, then
`within_range` (with enough fuel) returns exactly the identity built from the
signing draw at counter `c + k` and the single encryption draw at counter
`c + k + 1`, with final counter `c + k + 2`. -/
theorem within_range_first_accept (sha3_256 : List Byte → List Byte)
    (rng : Rng) (start e : XorName) :
    ∀ (k fuel c : Nat),
      (∀ j, j < k → inRange sha3_256 start e (rng.signStream (c + j)).1 = false) →
      inRange sha3_256 start e (rng.signStream (c + k)).1 = true →
      k < fuel →
      FullId.within_range sha3_256 rng start e fuel c =
        some (FullId.with_keys sha3_256 (rng.boxStream (c + k + 1))
          (rng.signStream (c + k)), c + k + 2) := by
  intro k
  induction k with
  | zero =>
    intro fuel c hrej hacc hk
    cases fuel with
    | zero => exact absurd hk (lt_irrefl 0)
    | succ fuel =>
      simp only [FullId.within_range]
      rw [if_pos (by simpa [inRange] using hacc)]
      simp
  | succ k ih =>
    intro fuel c hrej hacc hk
    cases fuel with
    | zero => exact absurd hk (Nat.not_lt_zero _)
    | succ fuel =>
      have h0 : inRange sha3_256 start e (rng.signStream c).1 = false := by
        simpa using hrej 0 (Nat.succ_pos k)
      simp only [FullId.within_range]
      rw [if_neg (by simp [inRange] at h0 ⊢; exact h0)]
      have hrej1 : ∀ j, j < k →
          inRange sha3_256 start e (rng.signStream (c + 1 + j)).1 = false := by
        intro j hj
        have he : c + 1 + j = c + (j + 1) := by omega
        rw [he]
        exact hrej (j + 1) (by omega)
      have hacc1 : inRange sha3_256 start e (rng.signStream (c + 1 + k)).1 = true := by
        have he : c + 1 + k = c + (k + 1) := by omega
        rw [he]
        exact hacc
      have := ih fuel (c + 1) hrej1 hacc1 (by omega)
      rw [this]
      have he1 : c + 1 + k = c + (k + 1) := by omega
      rw [he1]

/-! ### Generic `Ordering` helpers for the derived `Ord` on `PublicId` -/

theorem orderingThenEqEq (x y : Ordering) :
    x.then y = Ordering.eq ↔ x = Ordering.eq ∧ y = Ordering.eq := by
  cases x <;> cases y <;> decide

theorem orderingThenSwap (x y z : Ordering) :
    (x.then (y.then z)).swap = x.swap.then (y.swap.then z.swap) := by
  cases x <;> cases y <;> cases z <;> decide

theorem PublicId.cmp_swap (a b : PublicId) :
    PublicId.cmp b a = (PublicId.cmp a b).swap := by
  unfold PublicId.cmp
  rw [bytesCompare_swap a.name.bytes b.name.bytes,
    bytesCompare_swap a.public_sign_key.bytes b.public_sign_key.bytes,
    bytesCompare_swap a.public_encrypt_key.bytes b.public_encrypt_key.bytes,
    orderingThenSwap]

theorem PublicId.cmp_eq_iff (a b : PublicId) :
    PublicId.cmp a b = Ordering.eq ↔ a = b := by
  obtain ⟨⟨an⟩, ⟨asig⟩, ⟨aenc⟩⟩ := a
  obtain ⟨⟨bn⟩, ⟨bsig⟩, ⟨benc⟩⟩ := b
  simp [PublicId.cmp, orderingThenEqEq, bytesCompare_eq_iff]

theorem XorName.lt_iff (a b : XorName) :
    XorName.lt a b = true ↔ bytesCompare a.bytes b.bytes = Ordering.lt := by
  unfold XorName.lt XorName.cmp
  cases h : bytesCompare a.bytes b.bytes <;> simp [h]

/-- The ways a `PublicId` comes into existence in the source: built by
`PublicId::new` — directly, or inside `FullId::new` (src/src/id.rs:27-35),
`FullId::with_keys` (38-48) or `FullId::within_range` (52-63) — or decoded
from the wire (123-129).  There is no other assignment of a `name` anywhere
in the module. -/
def ConstructedPublicId (sha3_256 : List Byte → List Byte) (p : PublicId) :
    Prop :=
  (∃ ek sk, p = PublicId.new sha3_256 ek sk) ∨
  (∃ ekp skp, p = (FullId.with_keys sha3_256 ekp skp).public_id) ∨
  (∃ rng c, p = (FullId.new sha3_256 rng c).1.public_id) ∨
  (∃ rng start e fuel c fid c',
    FullId.within_range sha3_256 rng start e fuel c = some (fid, c') ∧
    p = fid.public_id) ∨
  (∃ bytes, PublicId.deserialise sha3_256 bytes = Except.ok p)

/-- Concrete RNG used to evaluate the definitions on closed inputs: the draw
at counter 0 is rejected by the range `[[0], [8]]` under the identity hash,
the draw at counter 1 is accepted. -/
def sampleRng : Rng where
  signStream := fun c =>
    if c = 0 then (SignPublicKey.mk [9], SignSecretKey.mk [10])
    else (SignPublicKey.mk [7], SignSecretKey.mk [8])
  boxStream := fun _ => (BoxPublicKey.mk [2], BoxSecretKey.mk [3])

/-- Concrete stand-in for the opaque hash when evaluating on closed inputs. -/
def sampleHash : List Byte → List Byte := fun bs => bs

/-! ### Claim theorems -/

/-- C1: for names `start <= end`, whenever `within_range(start, end)` returns,
the name of the returned identity's public identity satisfies
`start <= name <= end`, both endpoints inclusive. -/
theorem within_range_containment (sha3_256 : List Byte → List Byte)
    (rng : Rng) (start e : XorName) (fuel c c' : Nat) (fid : FullId)
    (_hse : XorName.le start e = true)
    (hret : FullId.within_range sha3_256 rng start e fuel c = some (fid, c')) :
    XorName.le start fid.public_id.name = true ∧
      XorName.le fid.public_id.name e = true := by
  obtain ⟨k, _, _, hacc, hfid, _⟩ :=
    within_range_spec sha3_256 rng start e fuel c fid c' hret
  subst hfid
  rw [inRange, Bool.and_eq_true] at hacc
  exact hacc

/-- C1 witness: a wide range `[[0], [255]]` under the identity hash accepts
the first sample draw (name `[9]`), and the returned name is inside. -/
theorem within_range_containment_witness :
    XorName.le (XorName.mk [0])
        (FullId.with_keys sampleHash (BoxPublicKey.mk [2], BoxSecretKey.mk [3])
          (SignPublicKey.mk [9], SignSecretKey.mk [10])).public_id.name = true ∧
      XorName.le
        (FullId.with_keys sampleHash (BoxPublicKey.mk [2], BoxSecretKey.mk [3])
          (SignPublicKey.mk [9], SignSecretKey.mk [10])).public_id.name
        (XorName.mk [255]) = true :=
  within_range_containment sampleHash sampleRng (XorName.mk [0])
    (XorName.mk [255]) 2 0 2
    (FullId.with_keys sampleHash (BoxPublicKey.mk [2], BoxSecretKey.mk [3])
      (SignPublicKey.mk [9], SignSecretKey.mk [10]))
    (by decide) (by decide)

/-- C2: every `PublicId` the module can produce — `PublicId::new`, reached
from `FullId::new`, `FullId::with_keys`, `FullId::within_range`, or the wire
decode — carries `name = name_from_key(public_sign_key)`, the hash of its
public signing key; no construction path assigns a name any other way. -/
theorem publicId_name_invariant (sha3_256 : List Byte → List Byte)
    (p : PublicId) (h : ConstructedPublicId sha3_256 p) :
    p.name = PublicId.name_from_key sha3_256 p.public_sign_key := by
  rcases h with ⟨ek, sk, rfl⟩ | ⟨ekp, skp, rfl⟩ | ⟨rng, c, rfl⟩ |
    ⟨rng, s, e, fuel, c, fid, c', hret, rfl⟩ | ⟨bytes, hok⟩
  · rfl
  · rfl
  · rfl
  · obtain ⟨k, _, _, _, hfid, _⟩ :=
      within_range_spec sha3_256 rng s e fuel c fid c' hret
    subst hfid
    rfl
  · unfold PublicId.deserialise at hok
    by_cases hl : bytes.length = 64
    · rw [if_pos hl] at hok
      injection hok with h2
      rw [← h2]
      rfl
    · rw [if_neg hl] at hok
      exact absurd hok (by simp)

/-- C2 witness: the invariant evaluated on a concretely constructed value. -/
theorem publicId_name_invariant_witness :
    (PublicId.new sampleHash (BoxPublicKey.mk [2]) (SignPublicKey.mk [7])).name =
      PublicId.name_from_key sampleHash
        (PublicId.new sampleHash (BoxPublicKey.mk [2])
          (SignPublicKey.mk [7])).public_sign_key :=
  publicId_name_invariant sampleHash
    (PublicId.new sampleHash (BoxPublicKey.mk [2]) (SignPublicKey.mk [7]))
    (Or.inl ⟨BoxPublicKey.mk [2], SignPublicKey.mk [7], rfl⟩)

/-- C3: serialising a valid `PublicId` (32-byte keys, name satisfying the
construction invariant) and deserialising the result yields the original
value, all fields included. -/
theorem serialise_roundtrip (sha3_256 : List Byte → List Byte) (p : PublicId)
    (henc : p.public_encrypt_key.bytes.length = 32)
    (hsig : p.public_sign_key.bytes.length = 32)
    (hname : p.name = PublicId.name_from_key sha3_256 p.public_sign_key) :
    PublicId.deserialise sha3_256 (PublicId.serialise p) = Except.ok p := by
  obtain ⟨⟨nb⟩, ⟨sb⟩, ⟨eb⟩⟩ := p
  simp only [PublicId.serialise, PublicId.deserialise] at *
  have hlen : (eb ++ sb).length = 64 := by
    simp only [List.length_append, henc, hsig]
  rw [if_pos hlen]
  have ht : (eb ++ sb).take 32 = eb := by
    rw [← henc]
    exact List.take_left eb sb
  have hd : (eb ++ sb).drop 32 = sb := by
    rw [← henc]
    exact List.drop_left eb sb
  rw [ht, hd, PublicId.new, ← hname]

/-- C3 witness: round trip on a concrete identity with 32-byte keys. -/
theorem serialise_roundtrip_witness :
    PublicId.deserialise sampleHash
        (PublicId.serialise (PublicId.new sampleHash
          (BoxPublicKey.mk (List.replicate 32 2))
          (SignPublicKey.mk (List.replicate 32 7)))) =
      Except.ok (PublicId.new sampleHash
        (BoxPublicKey.mk (List.replicate 32 2))
        (SignPublicKey.mk (List.replicate 32 7))) :=
  serialise_roundtrip sampleHash
    (PublicId.new sampleHash (BoxPublicKey.mk (List.replicate 32 2))
      (SignPublicKey.mk (List.replicate 32 7)))
    (by decide) (by decide) rfl

/-- C4: the derived order on `PublicId` is total with the name as primary
key: a smaller name forces `a < b` whatever the key bytes; distinct names
give exactly one of `a < b`, `b < a`; and with the key-byte tie-break the
comparator satisfies trichotomy on all values. -/
theorem publicId_order_name_primary (a b : PublicId) :
    (XorName.lt a.name b.name = true → PublicId.lt a b) ∧
    (a.name ≠ b.name →
      (PublicId.lt a b ∨ PublicId.lt b a) ∧
      ¬ (PublicId.lt a b ∧ PublicId.lt b a)) ∧
    (PublicId.lt a b ∨ a = b ∨ PublicId.lt b a) := by
  refine ⟨?_, ?_, ?_⟩
  · intro h
    have hx := (XorName.lt_iff a.name b.name).mp h
    unfold PublicId.lt PublicId.cmp
    rw [hx]
    rfl
  · intro hne
    have hx : bytesCompare a.name.bytes b.name.bytes ≠ Ordering.eq := by
      intro hx
      exact hne (congrArg XorName.mk ((bytesCompare_eq_iff _ _).mp hx))
    cases hc : bytesCompare a.name.bytes b.name.bytes with
    | eq => exact absurd hc hx
    | lt =>
      have hab : PublicId.lt a b := by
        unfold PublicId.lt PublicId.cmp
        rw [hc]
        rfl
      have hba : ¬ PublicId.lt b a := by
        intro hba
        unfold PublicId.lt at hba
        rw [PublicId.cmp_swap] at hba
        unfold PublicId.cmp at hba
        rw [hc] at hba
        exact Ordering.noConfusion hba
      exact ⟨Or.inl hab, fun hcon => hba hcon.2⟩
    | gt =>
      have hba : PublicId.lt b a := by
        unfold PublicId.lt
        rw [PublicId.cmp_swap]
        unfold PublicId.cmp
        rw [hc]
        rfl
      have hab : ¬ PublicId.lt a b := by
        intro hab
        unfold PublicId.lt PublicId.cmp at hab
        rw [hc] at hab
        exact Ordering.noConfusion hab
      exact ⟨Or.inr hba, fun hcon => hab hcon.1⟩
  · cases hc : PublicId.cmp a b with
    | lt => exact Or.inl hc
    | eq => exact Or.inr (Or.inl ((PublicId.cmp_eq_iff a b).mp hc))
    | gt =>
      refine Or.inr (Or.inr ?_)
      unfold PublicId.lt
      rw [PublicId.cmp_swap, hc]
      rfl

/-- C4 witness: on two concrete identities whose names differ, the smaller
name forces the order despite larger key bytes. -/
theorem publicId_order_name_primary_witness :
    PublicId.lt
      (PublicId.mk (XorName.mk [1]) (SignPublicKey.mk [200])
        (BoxPublicKey.mk [200]))
      (PublicId.mk (XorName.mk [2]) (SignPublicKey.mk [0])
        (BoxPublicKey.mk [0])) :=
  (publicId_order_name_primary
    (PublicId.mk (XorName.mk [1]) (SignPublicKey.mk [200])
      (BoxPublicKey.mk [200]))
    (PublicId.mk (XorName.mk [2]) (SignPublicKey.mk [0])
      (BoxPublicKey.mk [0]))).1 (by decide)

/-- C5: when the first accepted signing draw is at offset `k`, the loop has
consumed one entire fresh signing key pair per attempt (the draws at counters
`c`, …, `c + k`) and exactly one encryption key pair, drawn at counter
`c + k + 1` — strictly after the accepted signing draw, never during the
rejected iterations; the final counter `c + k + 2` accounts for every draw. -/
theorem within_range_draw_discipline (sha3_256 : List Byte → List Byte)
    (rng : Rng) (start e : XorName) (k fuel c : Nat)
    (hrej : ∀ j, j < k →
      inRange sha3_256 start e (rng.signStream (c + j)).1 = false)
    (hacc : inRange sha3_256 start e (rng.signStream (c + k)).1 = true)
    (hfuel : k < fuel) :
    FullId.within_range sha3_256 rng start e fuel c =
      some (FullId.with_keys sha3_256 (rng.boxStream (c + k + 1))
        (rng.signStream (c + k)), c + k + 2) :=
  within_range_first_accept sha3_256 rng start e k fuel c hrej hacc hfuel

/-- C5 witness: with the sample RNG the draw at counter 0 is rejected and the
draw at counter 1 accepted, so the encryption pair is drawn at counter 2 and
the final counter is 3. -/
theorem within_range_draw_discipline_witness :
    FullId.within_range sampleHash sampleRng (XorName.mk [0]) (XorName.mk [8])
        2 0 =
      some (FullId.with_keys sampleHash (sampleRng.boxStream 2)
        (sampleRng.signStream 1), 3) :=
  within_range_draw_discipline sampleHash sampleRng (XorName.mk [0])
    (XorName.mk [8]) 1 2 0
    (fun j hj => by
      have hj0 : j = 0 := by omega
      subst hj0
      decide)
    (by decide) (by decide)

/-- C6: decoding a byte sequence whose length is not the two fixed key widths
fails with `MalformedKeyData` and yields no `PublicId` at all — the error is
a value, not a panic, and no partially-built identity escapes. -/
theorem deserialise_malformed (sha3_256 : List Byte → List Byte)
    (bytes : List Byte) (h : bytes.length ≠ 64) :
    PublicId.deserialise sha3_256 bytes =
        Except.error SerialisationError.MalformedKeyData ∧
      ∀ p, PublicId.deserialise sha3_256 bytes ≠ Except.ok p := by
  have herr : PublicId.deserialise sha3_256 bytes =
      Except.error SerialisationError.MalformedKeyData := by
    unfold PublicId.deserialise
    rw [if_neg h]
  refine ⟨herr, fun p hp => ?_⟩
  rw [herr] at hp
  exact absurd hp (by simp)

/-- C6 witness: a three-byte input is rejected. -/
theorem deserialise_malformed_witness :
    PublicId.deserialise sampleHash [0, 1, 2] =
        Except.error SerialisationError.MalformedKeyData ∧
      ∀ p, PublicId.deserialise sampleHash [0, 1, 2] ≠ Except.ok p :=
  deserialise_malformed sampleHash [0, 1, 2] (by decide)

/-- C7: the wire encoding is exactly the encryption key bytes followed by the
signing key bytes; the name (and a fortiori any private key, which the type
does not even contain) is omitted — two identities agreeing on the two public
keys serialise identically whatever their name fields hold. -/
theorem serialise_layout (p q : PublicId)
    (henc : q.public_encrypt_key = p.public_encrypt_key)
    (hsig : q.public_sign_key = p.public_sign_key) :
    PublicId.serialise p =
        p.public_encrypt_key.bytes ++ p.public_sign_key.bytes ∧
      PublicId.serialise q = PublicId.serialise p := by
  constructor
  · rfl
  · unfold PublicId.serialise
    rw [henc, hsig]

/-- C7 witness: two concrete identities with different names but equal keys
have byte-identical encodings, laid out encryption key first. -/
theorem serialise_layout_witness :
    PublicId.serialise
        (PublicId.mk (XorName.mk [42]) (SignPublicKey.mk [7])
          (BoxPublicKey.mk [2])) =
        (BoxPublicKey.mk [2]).bytes ++ (SignPublicKey.mk [7]).bytes ∧
      PublicId.serialise
          (PublicId.mk (XorName.mk [43]) (SignPublicKey.mk [7])
            (BoxPublicKey.mk [2])) =
        PublicId.serialise
          (PublicId.mk (XorName.mk [42]) (SignPublicKey.mk [7])
            (BoxPublicKey.mk [2])) :=
  serialise_layout
    (PublicId.mk (XorName.mk [42]) (SignPublicKey.mk [7]) (BoxPublicKey.mk [2]))
    (PublicId.mk (XorName.mk [43]) (SignPublicKey.mk [7]) (BoxPublicKey.mk [2]))
    rfl rfl

/-- C8: `within_range` has no iteration cap and no failure value: with
`start > end` the acceptance test is unsatisfiable for every name, so the
loop never returns — in the fuel model it yields `none` for every fuel bound
and every RNG, rather than surfacing any error. -/
theorem within_range_unsat_never_returns (sha3_256 : List Byte → List Byte)
    (rng : Rng) (start e : XorName) (h : XorName.le start e = false) :
    ∀ fuel c, FullId.within_range sha3_256 rng start e fuel c = none := by
  intro fuel
  induction fuel with
  | zero => intro c; rfl
  | succ fuel ih =>
    intro c
    have hf := inRange_unsat h sha3_256 (rng.signStream c).1
    rw [inRange] at hf
    simp only [FullId.within_range]
    rw [if_neg (by simp [hf])]
    exact ih (c + 1)

/-- C8 witness: the empty interval `[[5], [1]]` produces no identity at fuel
bound 3. -/
theorem within_range_unsat_never_returns_witness :
    FullId.within_range sampleHash sampleRng (XorName.mk [5]) (XorName.mk [1])
        3 0 = none :=
  within_range_unsat_never_returns sampleHash sampleRng (XorName.mk [5])
    (XorName.mk [1]) (by decide) 3 0

/-- C9: `with_keys` is a total function of its four key arguments — it never
fails, checks nothing about whether the halves correspond (the TODO at
src/src/id.rs:42), stores the private halves exactly as given, and builds the
public identity from the supplied public halves, deriving the name from the
supplied public signing key. -/
theorem with_keys_total (sha3_256 : List Byte → List Byte)
    (ekPub : BoxPublicKey) (ekSec : BoxSecretKey)
    (skPub : SignPublicKey) (skSec : SignSecretKey) :
    (FullId.with_keys sha3_256 (ekPub, ekSec) (skPub, skSec)).public_id =
        PublicId.new sha3_256 ekPub skPub ∧
      (FullId.with_keys sha3_256 (ekPub, ekSec) (skPub, skSec)).private_encrypt_key
        = ekSec ∧
      (FullId.with_keys sha3_256 (ekPub, ekSec) (skPub, skSec)).private_sign_key
        = skSec ∧
      (FullId.with_keys sha3_256 (ekPub, ekSec) (skPub, skSec)).public_id.name
        = PublicId.name_from_key sha3_256 skPub ∧
      (FullId.with_keys sha3_256 (ekPub, ekSec) (skPub, skSec)).public_id.public_sign_key
        = skPub ∧
      (FullId.with_keys sha3_256 (ekPub, ekSec) (skPub, skSec)).public_id.public_encrypt_key
        = ekPub :=
  ⟨rfl, rfl, rfl, rfl, rfl, rfl⟩

/-- C10: the `Debug` and `Display` renderings are functions of the name
alone — equal names give identical output whatever the key bytes, for any
rendering of the name itself, so no key material reaches either output. -/
theorem fmt_name_only (nameFmt : XorName → String) (p q : PublicId)
    (h : p.name = q.name) :
    PublicId.debugFmt nameFmt p = PublicId.debugFmt nameFmt q ∧
      PublicId.displayFmt nameFmt p = PublicId.displayFmt nameFmt q := by
  unfold PublicId.debugFmt PublicId.displayFmt
  rw [h]
  exact ⟨rfl, rfl⟩

/-- C10 witness: two identities with the same name and different keys render
identically under a concrete name formatter. -/
theorem fmt_name_only_witness :
    PublicId.debugFmt (fun _ => "name")
        (PublicId.mk (XorName.mk [1]) (SignPublicKey.mk [7])
          (BoxPublicKey.mk [2])) =
      PublicId.debugFmt (fun _ => "name")
        (PublicId.mk (XorName.mk [1]) (SignPublicKey.mk [9])
          (BoxPublicKey.mk [4])) ∧
    PublicId.displayFmt (fun _ => "name")
        (PublicId.mk (XorName.mk [1]) (SignPublicKey.mk [7])
          (BoxPublicKey.mk [2])) =
      PublicId.displayFmt (fun _ => "name")
        (PublicId.mk (XorName.mk [1]) (SignPublicKey.mk [9])
          (BoxPublicKey.mk [4])) :=
  fmt_name_only (fun _ => "name")
    (PublicId.mk (XorName.mk [1]) (SignPublicKey.mk [7]) (BoxPublicKey.mk [2]))
    (PublicId.mk (XorName.mk [1]) (SignPublicKey.mk [9]) (BoxPublicKey.mk [4]))
    rfl

end Routing
